import Mathlib

/-!
Verification of the to-do-list application (`src/main.cpp`).

The program is embedded shallowly:
* C strings become `List Char`.
* `sscanf(s, "%d /%d /%d", ...)` becomes `scanDate`, built from a model of
  the `%d` conversion (skip whitespace, optional sign, digit run) and of
  literal/space directives.
* The regex `"([^"]*)","([^"]*)","([^"]*)","([^"]*)"` used by
  `retrieve_data` becomes `matchLine` (leftmost search of `matchAt`);
  `[^"]*` is a maximal run of non-quote characters, which for this pattern
  coincides with greedy matching.
* `std::getline` splitting of the file text becomes `getLines`.
* Interactive loops (`get_item_position`, `get_date_input`) consume an
  explicit list of user inputs; `none` means the loop never obtained an
  acceptable input.
-/

namespace TodoList

/-- C `isspace` in the default locale: space, tab, newline,
vertical tab, form feed, carriage return. -/
def isSpaceChar (c : Char) : Bool :=
  c = ' ' || c = '\t' || c = '\n' || c = Char.ofNat 11 || c = Char.ofNat 12 || c = '\r'

/-- Skip leading whitespace, as the `%d` conversion and the `' '`
directive of `sscanf` do. -/
def skipWs : List Char → List Char
  | [] => []
  | c :: cs => if isSpaceChar c then skipWs cs else c :: cs

/-- Consume a run of decimal digits, accumulating their value
(the digit-reading core of `%d`). -/
def parseDigits : List Char → Nat → Nat × List Char
  | [], acc => (acc, [])
  | c :: cs, acc =>
    if c.isDigit then parseDigits cs (acc * 10 + (c.toNat - 48)) else (acc, c :: cs)

/-- An unsigned decimal integer: at least one digit required. -/
def parseUInt (cs : List Char) : Option (Nat × List Char) :=
  match cs with
  | [] => none
  | c :: _ => if c.isDigit then some (parseDigits cs 0) else none

/-- The `%d` conversion after its whitespace skip: optional sign, then an
unsigned integer.  (Overflow of C `int` is undefined behaviour and not
modelled.) -/
def parseIntC (cs : List Char) : Option (Int × List Char) :=
  match cs with
  | [] => none
  | c :: rest =>
    if c = '-' then (parseUInt rest).map (fun p => (-(p.1 : Int), p.2))
    else if c = '+' then (parseUInt rest).map (fun p => ((p.1 : Int), p.2))
    else (parseUInt (c :: rest)).map (fun p => ((p.1 : Int), p.2))

/-- Match one literal character. -/
def expectChar (c : Char) : List Char → Option (List Char)
  | [] => none
  | x :: rest => if x = c then some rest else none

/-- `sscanf(s, "%d /%d /%d", &day, &month, &year)` (main.cpp:467, 560):
`some (day, month, year)` iff all three conversions succeed (the call
returns 3); trailing content after the third integer is ignored. -/
def scanDate (cs : List Char) : Option (Int × Int × Int) :=
  match parseIntC (skipWs cs) with
  | none => none
  | some (d, r1) =>
    match expectChar '/' (skipWs r1) with
    | none => none
    | some r2 =>
      match parseIntC (skipWs r2) with
      | none => none
      | some (m, r3) =>
        match expectChar '/' (skipWs r3) with
        | none => none
        | some r4 =>
          match parseIntC (skipWs r4) with
          | none => none
          | some (y, _) => some (d, m, y)

/-- `is_leap_year` (main.cpp:510).  C `%` on `int` truncates toward zero,
which is `Int.tmod`. -/
def is_leap_year (year : Int) : Bool :=
  if year.tmod 400 = 0 then true
  else if year.tmod 100 ≠ 0 ∧ year.tmod 4 = 0 then true
  else false

/-- The fixed days-per-month table of `is_valid_date` (main.cpp:489). -/
def days_in_month : List Int := [31, 28, 31, 30, 31, 30, 31, 31, 30, 31, 30, 31]

/-- `is_valid_date` (main.cpp:462). -/
def is_valid_date (date_str : List Char) : Bool :=
  match scanDate date_str with
  | none => false
  | some (day, month, year) =>
    if year < 1 then false
    else if month < 1 ∨ month > 12 then false
    else if day < 1 then false
    else if month = 2 ∧ is_leap_year year then
      if day > 29 then false else true
    else
      if day > days_in_month.getD (month - 1).toNat 0 then false else true

/-- Fuelled digit emitter; `fuel > n` always suffices, since `n / 10`
strictly decreases while `n ≥ 10`. -/
def natToDigitsAux : Nat → Nat → List Char → List Char
  | 0, _, acc => acc
  | fuel + 1, n, acc =>
    if n < 10 then Char.ofNat (48 + n) :: acc
    else natToDigitsAux fuel (n / 10) (Char.ofNat (48 + n % 10) :: acc)

/-- Decimal digits of a natural number, most significant first
(how `stringstream <<` renders a non-negative `int`). -/
def natToDigits (n : Nat) : List Char := natToDigitsAux (n + 1) n []

/-- `stringstream << (i : int)`: decimal, `-` sign for negatives. -/
def intToChars (i : Int) : List Char :=
  if i < 0 then '-' :: natToDigits i.natAbs else natToDigits i.toNat

/-- The tail of `get_date_input` (main.cpp:560): re-extract the three
integers and join them with plain slashes. -/
def canonicalize (cs : List Char) : List Char :=
  match scanDate cs with
  | some (d, m, y) => intToChars d ++ '/' :: intToChars m ++ '/' :: intToChars y
  | none => []

/-- `get_date_input` (main.cpp:529): keep reading lines until one passes
`is_valid_date`, then return its canonical form.  `none`: the supplied
inputs were exhausted without a valid date (the loop would still be
prompting). -/
def get_date_input : List (List Char) → Option (List Char)
  | [] => none
  | d :: rest => if is_valid_date d then some (canonicalize d) else get_date_input rest

/-- `struct TodoItem` (main.cpp:34). -/
structure TodoItem where
  title : List Char
  description : List Char
  due_date : List Char
  completed : Bool := false
deriving DecidableEq, Inhabited

/-- One output line of `save_data` (main.cpp:583): the four fields in
double quotes, comma-separated; `completed` is printed by `<<` as the
digit `1` or `0`. -/
def serializeLine (item : TodoItem) : List Char :=
  '"' :: item.title ++ '"' :: ',' ::
  '"' :: item.description ++ '"' :: ',' ::
  '"' :: item.due_date ++ '"' :: ',' ::
  '"' :: (if item.completed then ['1'] else ['0']) ++ ['"']

/-- `save_data` (main.cpp:569): the full file text, one line per item,
each terminated by `endl`. -/
def save_data : List TodoItem → List Char
  | [] => []
  | item :: rest => serializeLine item ++ '\n' :: save_data rest

/-- Maximal run of non-quote characters: what `[^"]*` matches.  For the
pattern of `retrieve_data` greedy matching and maximal-run matching
coincide, because `[^"]*` can never consume the `"` that must follow. -/
def takeField : List Char → List Char × List Char
  | [] => ([], [])
  | c :: cs =>
    if c = '"' then ([], c :: cs)
    else
      let p := takeField cs
      (c :: p.1, p.2)

/-- One `"([^"]*)"` group of the pattern. -/
def matchQuoted (cs : List Char) : Option (List Char × List Char) :=
  match expectChar '"' cs with
  | none => none
  | some r1 =>
    let p := takeField r1
    match expectChar '"' p.2 with
    | none => none
    | some r2 => some (p.1, r2)

/-- Attempt to match `"([^"]*)","([^"]*)","([^"]*)","([^"]*)"` at the
start of `cs`; anything after the final quote is ignored. -/
def matchAt (cs : List Char) : Option (List Char × List Char × List Char × List Char) :=
  match matchQuoted cs with
  | none => none
  | some (f1, r1) =>
    match expectChar ',' r1 with
    | none => none
    | some r2 =>
      match matchQuoted r2 with
      | none => none
      | some (f2, r3) =>
        match expectChar ',' r3 with
        | none => none
        | some r4 =>
          match matchQuoted r4 with
          | none => none
          | some (f3, r5) =>
            match expectChar ',' r5 with
            | none => none
            | some r6 =>
              match matchQuoted r6 with
              | none => none
              | some (f4, _) => some (f1, f2, f3, f4)

/-- `regex_search` of the pattern of main.cpp:615 over a line: the match
at the leftmost position where one exists. -/
def matchLine : List Char → Option (List Char × List Char × List Char × List Char)
  | [] => none
  | c :: cs =>
    match matchAt (c :: cs) with
    | some r => some r
    | none => matchLine cs

/-- The loop body of `retrieve_data` (main.cpp:622): on a match, the four
captures become the fields and `completed` is the comparison with `"1"`;
when `regex_search` fails every `matches.str(i)` is the empty string, so
an all-empty, not-completed record is produced. -/
def parseLine (line : List Char) : TodoItem :=
  match matchLine line with
  | some (f1, f2, f3, f4) =>
    { title := f1, description := f2, due_date := f3, completed := f4 = ['1'] }
  | none => { title := [], description := [], due_date := [], completed := false }

/-- `std::getline` looping over the file text: lines are cut at `'\n'`;
a final fragment without a terminating newline is still a line, and a
missing or empty file yields no lines at all. -/
def getLines : List Char → List (List Char)
  | [] => []
  | c :: cs =>
    if c = '\n' then [] :: getLines cs
    else
      match getLines cs with
      | [] => [[c]]
      | l :: ls => (c :: l) :: ls

/-- `retrieve_data` (main.cpp:595) on the file text. -/
def retrieve_data (text : List Char) : List TodoItem :=
  (getLines text).map parseLine

/-- One attempt of the input loop of `get_item_position` (main.cpp:403):
either a number was read, or `cin` failed on non-numeric input. -/
inductive PosInput where
  | num (n : Int)
  | nonNumeric
deriving DecidableEq

/-- `get_item_position` (main.cpp:403) over the successive user inputs:
`0` aborts with `-1`; an in-range number is returned minus one; anything
else re-prompts.  `none`: the inputs ran out while the loop was still
prompting. -/
def get_item_position (size : Nat) : List PosInput → Option Int
  | [] => none
  | .nonNumeric :: rest => get_item_position size rest
  | .num n :: rest =>
    if n = 0 then some (-1)
    else if 1 ≤ n ∧ n ≤ (size : Int) then some (n - 1)
    else get_item_position size rest

/-- `add` (main.cpp:247): an empty title aborts before anything is
stored; otherwise the record is appended once a valid due date arrives. -/
def addOp (items : List TodoItem) (title description : List Char)
    (dates : List (List Char)) : List TodoItem :=
  if title = [] then items
  else
    match get_date_input dates with
    | none => items
    | some d => items ++ [{ title := title, description := description,
                            due_date := d, completed := false }]

/-- `edit` (main.cpp:323): the record is copied, edited in the copy, and
written back only after all inputs were accepted; `completed` is kept
from the original. -/
def editOp (items : List TodoItem) (posInputs : List PosInput)
    (newTitle newDescription : List Char) (dates : List (List Char)) : List TodoItem :=
  match get_item_position items.length posInputs with
  | none => items
  | some p =>
    if p = -1 then items
    else if newTitle = [] then items
    else
      match get_date_input dates with
      | none => items
      | some d =>
        items.set p.toNat { title := newTitle, description := newDescription,
                            due_date := d,
                            completed := (items.getD p.toNat default).completed }

/-- The three observable outcomes of marking (spec §4.2). -/
inductive MarkResult where
  | NotFound
  | AlreadyCompleted
  | Marked
deriving DecidableEq

/-- The store-level `mark_completed` contract realised by the code: the
range test is the one of `get_item_position` (main.cpp:430), and the
completed/not-completed branch is the body of `mark` (main.cpp:313). -/
def mark_completed (items : List TodoItem) (pos : Int) : MarkResult × List TodoItem :=
  if 1 ≤ pos ∧ pos ≤ (items.length : Int) then
    let i := (pos - 1).toNat
    if (items.getD i default).completed then (.AlreadyCompleted, items)
    else (.Marked, items.set i { items.getD i default with completed := true })
  else (.NotFound, items)

/-- `mark` (main.cpp:302) over the successive user inputs. -/
def markOp (items : List TodoItem) (posInputs : List PosInput) : List TodoItem :=
  match get_item_position items.length posInputs with
  | none => items
  | some p =>
    if p = -1 then items
    else if (items.getD p.toNat default).completed then items
    else items.set p.toNat { items.getD p.toNat default with completed := true }

/-- The confirmation test of `remove` (main.cpp:386): `cin >> choice`
reads the first character of the typed token, and deletion proceeds iff
it is `y` or `Y`. -/
def removeConfirm (token : List Char) : Bool :=
  match token with
  | [] => false
  | c :: _ => c = 'y' || c = 'Y'

/-- Case folding of ASCII letters, used to state the claim that the
whole confirmation word is compared case-insensitively. -/
def toLowerChar (c : Char) : Char :=
  if 'A' ≤ c ∧ c ≤ 'Z' then Char.ofNat (c.toNat + 32) else c

/-- `remove` (main.cpp:366) over the successive user inputs. -/
def removeOp (items : List TodoItem) (posInputs : List PosInput)
    (token : List Char) : List TodoItem :=
  match get_item_position items.length posInputs with
  | none => items
  | some p =>
    if p = -1 then items
    else if removeConfirm token then items.eraseIdx p.toNat
    else items

/-- Positional removal at external position `pos` (`todo_items.erase`,
main.cpp:389). -/
def remove_at (items : List TodoItem) (pos : Int) : List TodoItem :=
  items.eraseIdx (pos - 1).toNat

/-- Days in a month as the spec words it: 29 for February of a leap
year, 28 for February otherwise, else the fixed table. -/
def daysInMonthSpec (month year : Int) : Int :=
  if month = 2 then (if is_leap_year year then 29 else 28)
  else days_in_month.getD (month - 1).toNat 0

/-- A stored due date: valid, and already canonical. -/
def CanonicalDate (s : List Char) : Prop :=
  is_valid_date s = true ∧ canonicalize s = s

/-- Every record of the list carries a canonical due date. -/
def DatesCanonical (items : List TodoItem) : Prop :=
  ∀ item ∈ items, CanonicalDate item.due_date

/-- `true` iff the list starts with a decimal digit (the condition under
which `parseDigits` would keep consuming). -/
def headDigit : List Char → Bool
  | [] => false
  | c :: _ => c.isDigit

/-- No field of the record contains a double-quote character (the
restriction stated by the spec for the round-trip property). -/
def NoQuoteFields (item : TodoItem) : Prop :=
  '"' ∉ item.title ∧ '"' ∉ item.description ∧ '"' ∉ item.due_date

/-- No field of the record contains a newline character. -/
def NoNewlineFields (item : TodoItem) : Prop :=
  '\n' ∉ item.title ∧ '\n' ∉ item.description ∧ '\n' ∉ item.due_date

instance (item : TodoItem) : Decidable (NoQuoteFields item) := by
  unfold NoQuoteFields; infer_instance

instance (item : TodoItem) : Decidable (NoNewlineFields item) := by
  unfold NoNewlineFields; infer_instance

/-! ### Facts about decimal digit characters -/

theorem digitChar_facts {n : Nat} (h : n < 10) :
    (Char.ofNat (48 + n)).isDigit = true ∧
    (Char.ofNat (48 + n)).toNat = 48 + n ∧
    isSpaceChar (Char.ofNat (48 + n)) = false ∧
    Char.ofNat (48 + n) ≠ '-' ∧
    Char.ofNat (48 + n) ≠ '+' ∧
    Char.ofNat (48 + n) ≠ '/' ∧
    Char.ofNat (48 + n) ≠ '"' ∧
    Char.ofNat (48 + n) ≠ '\n' := by
  interval_cases n <;> exact ⟨by decide, by decide, by decide, by decide,
    by decide, by decide, by decide, by decide⟩

/-! ### `natToDigits` -/

theorem natToDigitsAux_eq (n : Nat) : ∀ fuel acc, n < fuel →
    natToDigitsAux fuel n acc = natToDigits n ++ acc := by
  induction n using Nat.strong_induction_on with
  | _ n ih =>
    intro fuel acc hfuel
    match fuel, hfuel with
    | fuel + 1, hfuel =>
      by_cases h10 : n < 10
      · simp [natToDigitsAux, natToDigits, h10]
      · have hdiv : n / 10 < n := Nat.div_lt_self (by omega) (by omega)
        have h1 : natToDigitsAux (fuel + 1) n acc
            = natToDigitsAux fuel (n / 10) (Char.ofNat (48 + n % 10) :: acc) := by
          simp [natToDigitsAux, h10]
        have h2 : natToDigits n
            = natToDigitsAux n (n / 10) [Char.ofNat (48 + n % 10)] := by
          have : (n : Nat) + 1 = n + 1 := rfl
          simp [natToDigits, natToDigitsAux, h10]
        rw [h1, ih (n / 10) hdiv fuel _ (by omega), h2,
          ih (n / 10) hdiv n _ (by omega)]
        simp

theorem natToDigits_eq (n : Nat) :
    natToDigits n = if n < 10 then [Char.ofNat (48 + n)]
      else natToDigits (n / 10) ++ [Char.ofNat (48 + n % 10)] := by
  by_cases h10 : n < 10
  · simp [natToDigits, natToDigitsAux, h10]
  · have hdiv : n / 10 < n := Nat.div_lt_self (by omega) (by omega)
    have h2 : natToDigits n
        = natToDigitsAux n (n / 10) [Char.ofNat (48 + n % 10)] := by
      simp [natToDigits, natToDigitsAux, h10]
    rw [h2, natToDigitsAux_eq (n / 10) n _ (by omega)]
    simp [h10]

theorem natToDigits_mem (n : Nat) :
    ∀ c ∈ natToDigits n, ∃ k, k < 10 ∧ c = Char.ofNat (48 + k) := by
  induction n using Nat.strong_induction_on with
  | _ n ih =>
    intro c hc
    rw [natToDigits_eq] at hc
    by_cases h10 : n < 10
    · simp [h10] at hc
      exact ⟨n, h10, hc⟩
    · simp [h10] at hc
      rcases hc with hc | hc
      · exact ih (n / 10) (Nat.div_lt_self (by omega) (by omega)) c hc
      · exact ⟨n % 10, Nat.mod_lt _ (by omega), hc⟩

theorem natToDigits_cons (n : Nat) :
    ∃ c t, natToDigits n = c :: t ∧ c.isDigit = true := by
  rw [natToDigits_eq]
  by_cases h10 : n < 10
  · exact ⟨Char.ofNat (48 + n), [], by simp [h10], (digitChar_facts h10).1⟩
  · obtain ⟨c, t, hct, hc⟩ : ∃ c t, natToDigits (n / 10) = c :: t ∧ c.isDigit = true := by
      have := natToDigits_mem (n / 10)
      rcases he : natToDigits (n / 10) with _ | ⟨c, t⟩
      · exfalso
        rw [natToDigits_eq] at he
        by_cases h' : n / 10 < 10 <;> simp [h'] at he
      · have hm := this c (by rw [he]; exact List.mem_cons_self _ _)
        obtain ⟨k, hk, hck⟩ := hm
        exact ⟨c, t, rfl, hck ▸ (digitChar_facts hk).1⟩
    exact ⟨c, t ++ [Char.ofNat (48 + n % 10)], by simp [h10, hct], hc⟩

/-! ### `parseDigits`, `parseUInt`, `parseIntC`, `skipWs` on printed digits -/

theorem parseDigits_of_headDigit_false {rest : List Char} (h : headDigit rest = false)
    (acc : Nat) : parseDigits rest acc = (acc, rest) := by
  match rest, h with
  | [], _ => rfl
  | c :: cs, h => simp [headDigit] at h; simp [parseDigits, h]

theorem parseDigits_natToDigits (n : Nat) : ∀ acc rest,
    parseDigits (natToDigits n ++ rest) acc
      = parseDigits rest (acc * 10 ^ (natToDigits n).length + n) := by
  induction n using Nat.strong_induction_on with
  | _ n ih =>
    intro acc rest
    rw [natToDigits_eq]
    by_cases h10 : n < 10
    · obtain ⟨hdig, htn, -⟩ := digitChar_facts h10
      simp [h10, parseDigits, hdig, htn]
    · have hdiv : n / 10 < n := Nat.div_lt_self (by omega) (by omega)
      have hm10 : n % 10 < 10 := Nat.mod_lt _ (by omega)
      obtain ⟨hdig, htn, -⟩ := digitChar_facts hm10
      simp only [h10, if_false, List.append_assoc, List.cons_append,
        List.nil_append]
      rw [ih (n / 10) hdiv acc (Char.ofNat (48 + n % 10) :: rest)]
      simp only [parseDigits, hdig, if_true, htn, List.length_append,
        List.length_cons, List.length_nil, Nat.zero_add]
      congr 1
      have h48 : 48 + n % 10 - 48 = n % 10 := by omega
      have hmod : n / 10 * 10 + n % 10 = n := by omega
      have e1 : (acc * 10 ^ (natToDigits (n / 10)).length + n / 10) * 10 + n % 10
          = acc * (10 ^ (natToDigits (n / 10)).length * 10)
            + (n / 10 * 10 + n % 10) := by ring
      rw [h48, e1, hmod, pow_succ]

theorem parseUInt_natToDigits (n : Nat) {rest : List Char}
    (h : headDigit rest = false) :
    parseUInt (natToDigits n ++ rest) = some (n, rest) := by
  obtain ⟨c, t, hct, hdig⟩ := natToDigits_cons n
  rw [hct]
  simp only [List.cons_append, parseUInt, hdig, if_true]
  rw [← List.cons_append, ← hct, parseDigits_natToDigits n 0 rest,
    parseDigits_of_headDigit_false h]
  simp

theorem parseIntC_natToDigits (n : Nat) {rest : List Char}
    (h : headDigit rest = false) :
    parseIntC (natToDigits n ++ rest) = some ((n : Int), rest) := by
  obtain ⟨c, t, hct, hdig⟩ := natToDigits_cons n
  have : ∃ k, k < 10 ∧ c = Char.ofNat (48 + k) :=
    natToDigits_mem n c (by rw [hct]; exact List.mem_cons_self _ _)
  obtain ⟨k, hk, hck⟩ := this
  obtain ⟨-, -, -, hminus, hplus, -⟩ := digitChar_facts hk
  rw [hct]
  simp only [List.cons_append, parseIntC, hck, hminus, hplus, if_false]
  rw [← List.cons_append, ← hck, ← hct, parseUInt_natToDigits n h]
  simp

theorem skipWs_natToDigits (n : Nat) (rest : List Char) :
    skipWs (natToDigits n ++ rest) = natToDigits n ++ rest := by
  obtain ⟨c, t, hct, hdig⟩ := natToDigits_cons n
  have : ∃ k, k < 10 ∧ c = Char.ofNat (48 + k) :=
    natToDigits_mem n c (by rw [hct]; exact List.mem_cons_self _ _)
  obtain ⟨k, hk, hck⟩ := this
  obtain ⟨-, -, hsp, -⟩ := digitChar_facts hk
  rw [hct]
  simp [skipWs, hck, hsp]

theorem parseIntC_natToDigits_nil (n : Nat) :
    parseIntC (natToDigits n) = some ((n : Int), []) := by
  have h := parseIntC_natToDigits n (show headDigit [] = false from rfl)
  rwa [List.append_nil] at h

theorem skipWs_natToDigits_nil (n : Nat) :
    skipWs (natToDigits n) = natToDigits n := by
  have h := skipWs_natToDigits n []
  rwa [List.append_nil] at h

/-! ### `scanDate` on a printed date -/

theorem scanDate_print (a b c : Nat) :
    scanDate (natToDigits a ++ ('/' :: (natToDigits b ++ ('/' :: natToDigits c))))
      = some ((a : Int), (b : Int), (c : Int)) := by
  have h1 : parseIntC (natToDigits a ++ ('/' :: (natToDigits b ++ ('/' :: natToDigits c))))
      = some ((a : Int), '/' :: (natToDigits b ++ ('/' :: natToDigits c))) :=
    parseIntC_natToDigits a rfl
  have h2 : parseIntC (natToDigits b ++ ('/' :: natToDigits c))
      = some ((b : Int), '/' :: natToDigits c) :=
    parseIntC_natToDigits b rfl
  have hsk1 : ∀ l : List Char, skipWs ('/' :: l) = '/' :: l := fun l => rfl
  have hex : ∀ l : List Char, expectChar '/' ('/' :: l) = some l := fun l => rfl
  simp only [scanDate, skipWs_natToDigits, h1, h2, hsk1, hex,
    skipWs_natToDigits_nil, parseIntC_natToDigits_nil]

theorem scanDate_intToChars {d m y : Int} (hd : 1 ≤ d) (hm : 1 ≤ m) (hy : 1 ≤ y) :
    scanDate (intToChars d ++ '/' :: intToChars m ++ '/' :: intToChars y)
      = some (d, m, y) := by
  simp only [intToChars, if_neg (show ¬ d < 0 by omega),
    if_neg (show ¬ m < 0 by omega), if_neg (show ¬ y < 0 by omega)]
  have hnorm : natToDigits d.toNat ++ '/' :: natToDigits m.toNat ++ '/' :: natToDigits y.toNat
      = natToDigits d.toNat ++ ('/' :: (natToDigits m.toNat ++ ('/' :: natToDigits y.toNat))) := by
    simp [List.cons_append, List.append_assoc]
  rw [hnorm, scanDate_print,
    Int.toNat_of_nonneg (by omega : (0:Int) ≤ d),
    Int.toNat_of_nonneg (by omega : (0:Int) ≤ m),
    Int.toNat_of_nonneg (by omega : (0:Int) ≤ y)]

/-! ### Canonicalization -/

theorem canonicalize_eq_of_scan {s : List Char} {d m y : Int}
    (h : scanDate s = some (d, m, y)) :
    canonicalize s = intToChars d ++ '/' :: intToChars m ++ '/' :: intToChars y := by
  simp [canonicalize, h]

theorem is_valid_date_eq_of_scan {s₁ s₂ : List Char} {d m y : Int}
    (h₁ : scanDate s₁ = some (d, m, y)) (h₂ : scanDate s₂ = some (d, m, y)) :
    is_valid_date s₁ = is_valid_date s₂ := by
  simp only [is_valid_date, h₁, h₂]

theorem valid_scan {s : List Char} (h : is_valid_date s = true) :
    ∃ d m y, scanDate s = some (d, m, y) ∧ 1 ≤ d ∧ 1 ≤ m ∧ m ≤ 12 ∧ 1 ≤ y := by
  rcases he : scanDate s with _ | ⟨⟨d, m, y⟩⟩ <;>
    simp only [is_valid_date, he] at h
  · simp at h
  · refine ⟨d, m, y, rfl, ?_, ?_, ?_, ?_⟩ <;>
      (split_ifs at h with h1 h2 h3 h4 <;> omega)

theorem canonical_of_valid {s : List Char} (h : is_valid_date s = true) :
    CanonicalDate (canonicalize s) := by
  obtain ⟨d, m, y, hscan, hd, hm, hm12, hy⟩ := valid_scan h
  have hcan := canonicalize_eq_of_scan hscan
  have hscan2 : scanDate (canonicalize s) = some (d, m, y) := by
    rw [hcan]
    exact scanDate_intToChars hd hm hy
  exact ⟨by rw [is_valid_date_eq_of_scan hscan2 hscan]; exact h,
    by rw [canonicalize_eq_of_scan hscan2, hcan]⟩

theorem get_date_input_canonical_aux :
    ∀ dates s, get_date_input dates = some s → CanonicalDate s := by
  intro dates
  induction dates with
  | nil => intro s h; simp [get_date_input] at h
  | cons d rest ih =>
    intro s h
    by_cases hv : is_valid_date d
    · simp only [get_date_input, hv, if_true, Option.some.injEq] at h
      exact h ▸ canonical_of_valid hv
    · simp only [get_date_input, hv, if_false, Bool.false_eq_true] at h
      exact ih s h

/-! ### The date-validity condition -/

theorem is_valid_date_cond {s : List Char} {d m y : Int} (h : scanDate s = some (d, m, y)) :
    (is_valid_date s = true ↔
      (1 ≤ y ∧ 1 ≤ m ∧ m ≤ 12 ∧ 1 ≤ d ∧ d ≤ daysInMonthSpec m y)) := by
  simp only [is_valid_date, h, daysInMonthSpec]
  by_cases hm2 : m = 2
  · subst hm2
    by_cases hleap : is_leap_year y = true
    · simp [hleap]
    · simp [hleap]
      rw [show days_in_month[1]?.getD 0 = (28 : Int) by decide]
      omega
  · simp [hm2]
    tauto

/-! ### The persistence codec on serialized lines -/

theorem takeField_append {f : List Char} (hf : '"' ∉ f) (rest : List Char) :
    takeField (f ++ '"' :: rest) = (f, '"' :: rest) := by
  induction f with
  | nil => simp [takeField]
  | cons c t ih =>
    simp only [List.mem_cons, not_or] at hf
    have hc : ¬ (c = '"') := fun hx => hf.1 hx.symm
    simp [takeField, hc, ih hf.2]

theorem matchQuoted_append {f : List Char} (hf : '"' ∉ f) (rest : List Char) :
    matchQuoted ('"' :: (f ++ '"' :: rest)) = some (f, rest) := by
  have h1 : expectChar '"' ('"' :: (f ++ '"' :: rest)) = some (f ++ '"' :: rest) := rfl
  have h3 : expectChar '"' ('"' :: rest) = some rest := rfl
  simp only [matchQuoted, h1, takeField_append hf, h3]

theorem matchAt_quad (f1 f2 f3 f4 : List Char) (n1 : '"' ∉ f1) (n2 : '"' ∉ f2)
    (n3 : '"' ∉ f3) (n4 : '"' ∉ f4) :
    matchAt ('"' :: f1 ++ '"' :: ',' :: '"' :: f2 ++ '"' :: ',' :: '"' :: f3
      ++ '"' :: ',' :: '"' :: f4 ++ ['"']) = some (f1, f2, f3, f4) := by
  have hc : ∀ l : List Char, expectChar ',' (',' :: l) = some l := fun l => rfl
  simp only [List.cons_append, List.append_assoc, List.nil_append]
  simp only [matchAt, matchQuoted_append n1, matchQuoted_append n2,
    matchQuoted_append n3, matchQuoted_append n4, hc]

theorem matchAt_serializeLine {item : TodoItem} (h : NoQuoteFields item) :
    matchAt (serializeLine item)
      = some (item.title, item.description, item.due_date,
          if item.completed then ['1'] else ['0']) := by
  obtain ⟨h1, h2, h3⟩ := h
  have h4 : '"' ∉ (if item.completed then ['1'] else ['0']) := by
    cases item.completed <;> decide
  exact matchAt_quad _ _ _ _ h1 h2 h3 h4

theorem matchLine_of_matchAt {c : Char} {cs : List Char}
    {r : List Char × List Char × List Char × List Char}
    (h : matchAt (c :: cs) = some r) : matchLine (c :: cs) = some r := by
  simp [matchLine, h]

theorem parseLine_serializeLine {item : TodoItem} (h : NoQuoteFields item) :
    parseLine (serializeLine item) = item := by
  have hml : matchLine (serializeLine item)
      = some (item.title, item.description, item.due_date,
          if item.completed then ['1'] else ['0']) :=
    matchLine_of_matchAt (matchAt_serializeLine h)
  simp only [parseLine, hml]
  cases item with
  | mk t de du c => cases c <;> simp

theorem parseLine_of_no_match {line : List Char} (h : matchLine line = none) :
    parseLine line = { title := [], description := [], due_date := [], completed := false } := by
  simp [parseLine, h]

theorem getLines_append {l : List Char} (hl : '\n' ∉ l) (rest : List Char) :
    getLines (l ++ '\n' :: rest) = l :: getLines rest := by
  induction l with
  | nil => simp [getLines]
  | cons c t ih =>
    simp only [List.mem_cons, not_or] at hl
    have hc : ¬ (c = '\n') := fun hx => hl.1 hx.symm
    simp [getLines, hc, ih hl.2]

theorem serializeLine_no_newline {item : TodoItem} (h : NoNewlineFields item) :
    '\n' ∉ serializeLine item := by
  obtain ⟨h1, h2, h3⟩ := h
  cases hc : item.completed <;>
    simp [serializeLine, hc, List.mem_append, List.mem_cons, h1, h2, h3]

theorem retrieve_save {items : List TodoItem}
    (h : ∀ item ∈ items, NoQuoteFields item ∧ NoNewlineFields item) :
    retrieve_data (save_data items) = items := by
  induction items with
  | nil => rfl
  | cons it rest ih =>
    obtain ⟨hq, hn⟩ := h it (List.mem_cons_self _ _)
    have hrest : ∀ item ∈ rest, NoQuoteFields item ∧ NoNewlineFields item :=
      fun i hi => h i (List.mem_cons_of_mem _ hi)
    have hnl := serializeLine_no_newline hn
    show (getLines (serializeLine it ++ '\n' :: save_data rest)).map parseLine = it :: rest
    rw [getLines_append hnl]
    simp only [List.map_cons]
    rw [parseLine_serializeLine hq]
    congr 1
    exact ih hrest

/-! ### Arithmetic and store helpers -/

theorem tmod_eq_zero_iff_emod (a n : Int) : a.tmod n = 0 ↔ a % n = 0 := by
  rw [← Int.dvd_iff_tmod_eq_zero, Int.dvd_iff_emod_eq_zero]

theorem get_item_position_bounds (size : Nat) :
    ∀ inputs p, get_item_position size inputs = some p →
      p = -1 ∨ (0 ≤ p ∧ p < (size : Int)) := by
  intro inputs
  induction inputs with
  | nil => intro p h; simp [get_item_position] at h
  | cons i rest ih =>
    intro p h
    cases i with
    | nonNumeric => exact ih p h
    | num n =>
      simp only [get_item_position] at h
      split_ifs at h with h0 hr
      · injection h with h'
        left
        omega
      · injection h with h'
        right
        omega
      · exact ih p h

theorem getD_mem {l : List TodoItem} {i : Nat} (h : i < l.length) :
    l.getD i default ∈ l := by
  rw [List.getD_eq_getElem?_getD, List.getElem?_eq_getElem h]
  exact List.getElem_mem h

/-! ### Claims -/

/-- C2.  Whenever the scan extracts three integers `day`, `month`, `year`,
`is_valid_date` accepts exactly when `year ≥ 1`, `month ∈ [1, 12]`,
`day ≥ 1` and `day` does not exceed the days of that month (29 for
February in a leap year, 28 for February otherwise, else the fixed
table); when the scan fails the date is invalid; and the five concrete
examples of the spec hold. -/
theorem is_valid_date_correct (s : List Char) :
    (∀ d m y : Int, scanDate s = some (d, m, y) →
      (is_valid_date s = true ↔
        (1 ≤ y ∧ 1 ≤ m ∧ m ≤ 12 ∧ 1 ≤ d ∧ d ≤ daysInMonthSpec m y))) ∧
    (scanDate s = none → is_valid_date s = false) ∧
    is_valid_date "29/2/2024".data = true ∧
    is_valid_date "29/2/2023".data = false ∧
    is_valid_date "31/4/2024".data = false ∧
    is_valid_date "0/1/2024".data = false ∧
    is_valid_date "1/13/2024".data = false :=
  ⟨fun _ _ _ h => is_valid_date_cond h,
   fun h => by simp [is_valid_date, h],
   by decide, by decide, by decide, by decide, by decide⟩

/-- Witness for C2 at the concrete input `"29/2/2024"`. -/
theorem is_valid_date_correct_witness : is_valid_date "29/2/2024".data = true :=
  ((is_valid_date_correct "29/2/2024".data).1 29 2 2024 (by decide)).mpr (by decide)

/-- C3.  `is_leap_year` is the standard Gregorian rule, and the four
concrete examples of the spec hold. -/
theorem is_leap_year_correct (y : Int) :
    (is_leap_year y = true ↔ (y % 400 = 0 ∨ (y % 100 ≠ 0 ∧ y % 4 = 0))) ∧
    is_leap_year 1900 = false ∧ is_leap_year 2000 = true ∧
    is_leap_year 2024 = true ∧ is_leap_year 2023 = false := by
  refine ⟨?_, by decide, by decide, by decide, by decide⟩
  have e400 := tmod_eq_zero_iff_emod y 400
  have e100 := tmod_eq_zero_iff_emod y 100
  have e4 := tmod_eq_zero_iff_emod y 4
  unfold is_leap_year
  split_ifs with h1 h2
  · simp only [true_iff]
    exact Or.inl (e400.mp h1)
  · simp only [true_iff]
    exact Or.inr ⟨fun hc => h2.1 (e100.mpr hc), e4.mp h2.2⟩
  · simp only [Bool.false_eq_true, false_iff]
    rintro (h400 | ⟨h100, h4⟩)
    · exact h1 (e400.mpr h400)
    · exact h2 ⟨fun hc => h100 (e100.mp hc), e4.mpr h4⟩

/-- C4.  `mark_completed` has exactly three outcomes: `NotFound` outside
`[1, len]`, `AlreadyCompleted` (with the list unchanged) when the flag is
already set, and `Marked` when it was clear, in which case exactly the
addressed record is updated. -/
theorem mark_completed_correct (items : List TodoItem) (pos : Int) :
    (¬(1 ≤ pos ∧ pos ≤ (items.length : Int)) →
      mark_completed items pos = (.NotFound, items)) ∧
    ((1 ≤ pos ∧ pos ≤ (items.length : Int)) →
      ((items.getD (pos - 1).toNat default).completed = true →
        mark_completed items pos = (.AlreadyCompleted, items)) ∧
      ((items.getD (pos - 1).toNat default).completed = false →
        mark_completed items pos
          = (.Marked, items.set (pos - 1).toNat
              { items.getD (pos - 1).toNat default with completed := true }) ∧
        (∀ j : Nat, j ≠ (pos - 1).toNat →
          (items.set (pos - 1).toNat
            { items.getD (pos - 1).toNat default with completed := true })[j]?
            = items[j]?))) := by
  constructor
  · intro h
    simp [mark_completed, h]
  · intro h
    constructor
    · intro hc
      simp only [mark_completed, h, and_self, if_true, hc]
    · intro hc
      refine ⟨?_, ?_⟩
      · simp only [mark_completed, h, and_self, if_true, hc,
          Bool.false_eq_true, if_false]
      · intro j hj
        exact List.getElem?_set_ne (Ne.symm hj)

/-- Witness for C4: marking the single not-yet-completed record of a
one-element list. -/
theorem mark_completed_correct_witness :
    mark_completed [⟨['a'], [], [], false⟩] 1
      = (.Marked, [⟨['a'], [], [], true⟩]) := by
  have h :=
    (((mark_completed_correct [⟨['a'], [], [], false⟩] 1).2 (by decide)).2 (by decide)).1
  rw [h]
  decide

/-- C5.  `remove` at a valid external position shortens the list by one,
keeps earlier records in place and shifts later ones down; in particular
removing position 2 from a three-element list leaves positions 1 and 3
as the new positions 1 and 2. -/
theorem remove_correct (items : List TodoItem) (pos : Int)
    (h1 : 1 ≤ pos) (h2 : pos ≤ (items.length : Int)) :
    (remove_at items pos).length = items.length - 1 ∧
    (∀ j : Nat, j < (pos - 1).toNat → (remove_at items pos)[j]? = items[j]?) ∧
    (∀ j : Nat, (pos - 1).toNat ≤ j → (remove_at items pos)[j]? = items[j + 1]?) ∧
    (∀ a b c : TodoItem, remove_at [a, b, c] 2 = [a, c]) := by
  refine ⟨?_, ?_, ?_, ?_⟩
  · exact List.length_eraseIdx_of_lt (by omega)
  · intro j hj
    exact List.getElem?_eraseIdx_of_lt items (pos - 1).toNat j hj
  · intro j hj
    exact List.getElem?_eraseIdx_of_ge items (pos - 1).toNat j hj
  · intro a b c
    rfl

/-- Witness for C5 on a concrete three-element list. -/
theorem remove_correct_witness :
    (remove_at [⟨['a'], [], [], false⟩, ⟨['b'], [], [], false⟩, ⟨['c'], [], [], false⟩] 2).length = 2 ∧
    remove_at [⟨['a'], [], [], false⟩, ⟨['b'], [], [], false⟩, ⟨['c'], [], [], false⟩] 2
      = [⟨['a'], [], [], false⟩, ⟨['c'], [], [], false⟩] := by
  have h := remove_correct
    [⟨['a'], [], [], false⟩, ⟨['b'], [], [], false⟩, ⟨['c'], [], [], false⟩] 2
    (by decide) (by decide)
  exact ⟨h.1, h.2.2.2 _ _ _⟩

/-- C1, counterexample.  A quote-free record whose title contains a
newline serializes into text that parses back to a different list, so
quote-freedom alone does not give the round trip. -/
theorem roundtrip_counterexample :
    NoQuoteFields ⟨['a', '\n', 'b'], [], [], false⟩ ∧
    retrieve_data (save_data [⟨['a', '\n', 'b'], [], [], false⟩])
      ≠ [⟨['a', '\n', 'b'], [], [], false⟩] := by
  constructor
  · exact ⟨by decide, by decide, by decide⟩
  · decide

/-- C1, amended.  For records whose fields contain neither a
double-quote nor a newline character, parsing the serialized text
reproduces the list exactly, in all fields and in order. -/
theorem roundtrip_amended (items : List TodoItem)
    (h : ∀ item ∈ items, NoQuoteFields item ∧ NoNewlineFields item) :
    retrieve_data (save_data items) = items :=
  retrieve_save h

/-- Witness for the amended C1 on a concrete two-record list. -/
theorem roundtrip_amended_witness :
    retrieve_data (save_data
      [⟨"Buy milk".data, "2%".data, "5/3/2025".data, false⟩,
       ⟨"taxes".data, [], "29/2/2024".data, true⟩])
      = [⟨"Buy milk".data, "2%".data, "5/3/2025".data, false⟩,
         ⟨"taxes".data, [], "29/2/2024".data, true⟩] :=
  roundtrip_amended _ (by decide)

/-- C6.  A line that does not match the four-quoted-field pattern still
contributes a record: the all-empty, not-completed one; one record is
produced for every line. -/
theorem malformed_line_empty_record (text : List Char) (i : Nat) (line : List Char)
    (hline : (getLines text)[i]? = some line) (h : matchLine line = none) :
    (retrieve_data text).length = (getLines text).length ∧
    (retrieve_data text)[i]?
      = some { title := [], description := [], due_date := [], completed := false } := by
  constructor
  · simp [retrieve_data]
  · have hp : parseLine line
        = { title := [], description := [], due_date := [], completed := false } :=
      parseLine_of_no_match h
    simp [retrieve_data, List.getElem?_map, hline, hp]

/-- Witness for C6 on a concrete malformed line. -/
theorem malformed_line_empty_record_witness :
    (retrieve_data "garbage".data).length = (getLines "garbage".data).length ∧
    (retrieve_data "garbage".data)[0]?
      = some { title := [], description := [], due_date := [], completed := false } :=
  malformed_line_empty_record "garbage".data 0 "garbage".data (by decide) (by decide)

/-- C7.  Every abort or error path of Add and Edit leaves the list
untouched: empty title on Add, exhausted date input on Add, empty new
title on Edit, aborted or exhausted position input on Edit, exhausted
date input on Edit. -/
theorem no_partial_mutation (items : List TodoItem) (title desc : List Char)
    (dates : List (List Char)) (posInputs : List PosInput) (newDesc : List Char) :
    (addOp items [] desc dates = items) ∧
    (get_date_input dates = none → addOp items title desc dates = items) ∧
    (editOp items posInputs [] newDesc dates = items) ∧
    (get_item_position items.length posInputs = none →
      editOp items posInputs title newDesc dates = items) ∧
    (get_item_position items.length posInputs = some (-1) →
      editOp items posInputs title newDesc dates = items) ∧
    (get_date_input dates = none →
      editOp items posInputs title newDesc dates = items) := by
  refine ⟨by simp [addOp], ?_, ?_, ?_, ?_, ?_⟩
  · intro hd
    by_cases ht : title = [] <;> simp [addOp, ht, hd]
  · rcases hgp : get_item_position items.length posInputs with _ | p
    · simp [editOp, hgp]
    · by_cases hp : p = -1 <;> simp [editOp, hgp, hp]
  · intro hgp
    simp [editOp, hgp]
  · intro hgp
    simp [editOp, hgp]
  · intro hd
    rcases hgp : get_item_position items.length posInputs with _ | p
    · simp [editOp, hgp]
    · by_cases hp : p = -1 <;> by_cases ht : title = [] <;>
        simp [editOp, hgp, hp, ht, hd]

/-- Witness for C7: adding with an exhausted date input changes
nothing. -/
theorem no_partial_mutation_witness :
    addOp [⟨['a'], [], [], false⟩] ['t'] [] [] = [⟨['a'], [], [], false⟩] :=
  (no_partial_mutation [⟨['a'], [], [], false⟩] ['t'] [] [] [] []).2.1 rfl

/-- C8, counterexample.  The confirmation input `"yep"` is not the word
`"yes"` under case-insensitive comparison, yet the record is deleted:
the code only inspects the first character. -/
theorem remove_confirmation_counterexample :
    removeOp [⟨['a'], [], [], false⟩] [.num 1] ['y', 'e', 'p'] = [] ∧
    ['y', 'e', 'p'].map toLowerChar ≠ ['y', 'e', 's'] := by
  constructor <;> decide

/-- C8, amended.  Once a valid position is chosen, the record is deleted
iff the confirmation token starts with `y` or `Y`; any other token
leaves the list unchanged. -/
theorem remove_confirmation (items : List TodoItem) (posInputs : List PosInput)
    (token : List Char) (p : Int)
    (hp : get_item_position items.length posInputs = some p) (hne : p ≠ -1) :
    (removeOp items posInputs token
      = if removeConfirm token then items.eraseIdx p.toNat else items) ∧
    (removeConfirm token = true ↔
      ∃ c rest, token = c :: rest ∧ (c = 'y' ∨ c = 'Y')) := by
  constructor
  · simp [removeOp, hp, hne]
  · cases token with
    | nil =>
      simp [removeConfirm]
    | cons c rest =>
      simp only [removeConfirm, Bool.or_eq_true, decide_eq_true_eq]
      constructor
      · intro hc
        exact ⟨c, rest, rfl, hc⟩
      · rintro ⟨c', rest', heq, hor⟩
        injection heq with h1 h2
        subst h1
        exact hor

/-- Witness for the amended C8: a `"no"` token cancels. -/
theorem remove_confirmation_witness :
    removeOp [⟨['a'], [], [], false⟩] [.num 1] ['n', 'o']
      = if removeConfirm ['n', 'o']
        then [⟨['a'], [], [], false⟩].eraseIdx (0 : Int).toNat
        else [⟨['a'], [], [], false⟩] :=
  (remove_confirmation [⟨['a'], [], [], false⟩] [.num 1] ['n', 'o'] 0
    (by decide) (by decide)).1

/-- C9.  `get_item_position` only ever returns `-1` or a zero-based
index within the list, so the positional operations never index the
vector out of bounds. -/
theorem get_item_position_safe (size : Nat) (inputs : List PosInput) (p : Int)
    (h : get_item_position size inputs = some p) :
    (p = -1 ∨ (0 ≤ p ∧ p < (size : Int))) ∧ (p ≠ -1 → p.toNat < size) := by
  have hb := get_item_position_bounds size inputs p h
  exact ⟨hb, fun hne => by omega⟩

/-- Witness for C9 at a concrete input sequence over a list of size 3. -/
theorem get_item_position_safe_witness :
    (((1 : Int) = -1 ∨ ((0 : Int) ≤ 1 ∧ (1 : Int) < ((3 : Nat) : Int))) ∧
      ((1 : Int) ≠ -1 → (1 : Int).toNat < 3)) :=
  get_item_position_safe 3 [.num 5, .num 2] 1 (by decide)

/-- C10.  Every due date delivered by the date-input loop is valid and
canonical (re-canonicalizing it returns the same string), and the
per-record canonicity invariant is preserved by Add, Edit, Mark (in both
its interactive and store-level form) and Remove. -/
theorem dates_canonical_invariant :
    (∀ dates s, get_date_input dates = some s → CanonicalDate s) ∧
    (∀ items title desc dates, DatesCanonical items →
      DatesCanonical (addOp items title desc dates)) ∧
    (∀ items posInputs t d2 dates, DatesCanonical items →
      DatesCanonical (editOp items posInputs t d2 dates)) ∧
    (∀ items posInputs, DatesCanonical items →
      DatesCanonical (markOp items posInputs)) ∧
    (∀ items pos, DatesCanonical items →
      DatesCanonical (mark_completed items pos).2) ∧
    (∀ items posInputs token, DatesCanonical items →
      DatesCanonical (removeOp items posInputs token)) := by
  refine ⟨get_date_input_canonical_aux, ?_, ?_, ?_, ?_, ?_⟩
  · intro items title desc dates hinv
    unfold addOp
    split_ifs with ht
    · exact hinv
    · rcases hd : get_date_input dates with _ | d
      · simp only [hd]
        exact hinv
      · simp only [hd]
        intro item hmem
        rcases List.mem_append.mp hmem with hm | hm
        · exact hinv item hm
        · rw [List.mem_singleton.mp hm]
          exact get_date_input_canonical_aux dates d hd
  · intro items posInputs t d2 dates hinv
    rcases hgp : get_item_position items.length posInputs with _ | p <;>
      simp only [editOp, hgp]
    · exact hinv
    · by_cases hp : p = -1
      · simp only [hp, if_true]
        exact hinv
      · simp only [hp, if_false]
        by_cases ht : t = []
        · simp only [ht, if_true]
          exact hinv
        · simp only [ht, if_false]
          rcases hd : get_date_input dates with _ | d <;> simp only [hd]
          · exact hinv
          · intro item hmem
            rcases List.mem_or_eq_of_mem_set hmem with hm | hm
            · exact hinv item hm
            · rw [hm]
              exact get_date_input_canonical_aux dates d hd
  · intro items posInputs hinv
    rcases hgp : get_item_position items.length posInputs with _ | p <;>
      simp only [markOp, hgp]
    · exact hinv
    · by_cases hp : p = -1
      · simp only [hp, if_true]
        exact hinv
      · simp only [hp, if_false]
        by_cases hc : (items.getD p.toNat default).completed
        · simp only [hc, if_true]
          exact hinv
        · simp only [hc, Bool.false_eq_true, if_false]
          intro item hmem
          rcases List.mem_or_eq_of_mem_set hmem with hm | hm
          · exact hinv item hm
          · rw [hm]
            have hb := get_item_position_bounds items.length posInputs p hgp
            have hlt : p.toNat < items.length := by omega
            show CanonicalDate (items.getD p.toNat default).due_date
            exact hinv _ (getD_mem hlt)
  · intro items pos hinv
    simp only [mark_completed]
    split_ifs with h hc
    · exact hinv
    · intro item hmem
      rcases List.mem_or_eq_of_mem_set hmem with hm | hm
      · exact hinv item hm
      · rw [hm]
        have hlt : (pos - 1).toNat < items.length := by omega
        show CanonicalDate (items.getD (pos - 1).toNat default).due_date
        exact hinv _ (getD_mem hlt)
    · exact hinv
  · intro items posInputs token hinv
    rcases hgp : get_item_position items.length posInputs with _ | p <;>
      simp only [removeOp, hgp]
    · exact hinv
    · by_cases hp : p = -1
      · simp only [hp, if_true]
        exact hinv
      · simp only [hp, if_false]
        by_cases hcf : removeConfirm token
        · simp only [hcf, if_true]
          intro item hmem
          exact hinv item (List.mem_of_mem_eraseIdx hmem)
        · simp only [hcf, Bool.false_eq_true, if_false]
          exact hinv

/-- Witness for C10: the canonical form delivered for the input
`"1/1/2024"`. -/
theorem dates_canonical_invariant_witness :
    CanonicalDate "1/1/2024".data :=
  dates_canonical_invariant.1 ["1/1/2024".data] "1/1/2024".data (by decide)

end TodoList
